import Mathlib

/-!
Verification development for the `agent-manager` skill synchronizer.

Shallow embedding of the sync engine's core functions, translated from the
TypeScript sources:

* `src/retry.ts`        — `RetryConfig`, `calculateBackoff`, `withRetry`
* `src/utils.ts`        — `validatePathWithinBase`, `pLimit`
* `src/metadata-manager.ts` — `loadMetadata`, `hashFile`, `calculateContentHash`,
                              `getAllFiles`
* `src/sync.ts`         — `syncSingleSkill`, `syncSkills`
* `agent-manager.ts`    — `createSymlink`

Machine numbers are modelled as `Nat` (all quantities involved — retry counts,
backoff milliseconds, simulated durations — are small non-negative integers in
the source).  JavaScript exceptions are modelled with `Except`; JavaScript
string truthiness (`!x` on an optional string) is modelled on `Option String`.
Asynchronous completion order is modelled by giving every task an explicit
duration and simulating the event loop deterministically (see `pLimitModel`).
-/

namespace AgentManager

/-! ## Retry policy — from `src/retry.ts` -/

/-- Configuration for retry logic (`RetryConfig` with the defaults merged in,
i.e. the source's `Required<RetryConfig>`).  Errors are modelled by their
message strings, matching the source's message-based `isRetryable`
classifier. -/
structure RetryConfig where
  maxRetries : Nat
  initialBackoff : Nat
  maxBackoff : Nat
  backoffMultiplier : Nat
  isRetryable : String → Bool

/-- `calculateBackoff` from `src/retry.ts`: exponential delay
`initialBackoff * backoffMultiplier^(attempt-1)` clamped by `maxBackoff`
(`Math.min`). -/
def calculateBackoff (attempt : Nat) (config : RetryConfig) : Nat :=
  let exponentialDelay := config.initialBackoff * config.backoffMultiplier ^ (attempt - 1)
  min exponentialDelay config.maxBackoff

/-- Observable trace of one `withRetry` run: the final outcome (`return` or
`throw`), how many times the wrapped operation was invoked, and the backoff
delays passed to `sleep`, in order. -/
structure RetryTrace (α : Type) where
  result : Except String α
  calls : Nat
  sleeps : List Nat
deriving Repr

/-- The `for (let attempt = 1; attempt <= maxRetries; attempt++)` loop of
`withRetry`.  `op k` is the outcome of the `k`-th invocation of the wrapped
operation.  `fuel = maxRetries - attempt + 1` counts the remaining loop
iterations; `lastError` mirrors the source's `lastError` variable.  The retry
condition `attempt >= maxRetries || !isRetryable(lastError)` is rendered as a
proposition. -/
def withRetryGo (op : Nat → Except String α) (operationName : String)
    (config : RetryConfig) : Nat → Nat → Option String → RetryTrace α
  | _, 0, lastError =>
    -- loop exhausted without returning: `throw lastError || new Error(...)`
    { result := .error (lastError.getD
        (operationName ++ " failed after " ++ toString config.maxRetries ++ " retries")),
      calls := 0, sleeps := [] }
  | attempt, fuel + 1, _ =>
    match op attempt with
    | .ok a => { result := .ok a, calls := 1, sleeps := [] }
    | .error e =>
      if config.maxRetries ≤ attempt ∨ config.isRetryable e = false then
        -- `throw error` — the original error propagates unchanged
        { result := .error e, calls := 1, sleeps := [] }
      else
        let backoffMs := calculateBackoff attempt config
        let rest := withRetryGo op operationName config (attempt + 1) fuel (some e)
        { result := rest.result, calls := rest.calls + 1, sleeps := backoffMs :: rest.sleeps }

/-- `withRetry` from `src/retry.ts`, as a deterministic trace over the
per-invocation outcomes `op`. -/
def withRetry (op : Nat → Except String α) (operationName : String)
    (config : RetryConfig) : RetryTrace α :=
  withRetryGo op operationName config 1 config.maxRetries none

/-! ## Path validation — from `src/utils.ts` -/

/-- Model of JavaScript's `String.prototype.startsWith`: a prefix test on the
character sequence. -/
def jsStartsWith (s pre : String) : Bool :=
  pre.data.isPrefixOf s.data

/-- `validatePathWithinBase` from `src/utils.ts`, applied to the already
`path.resolve`d base and target (the claim is stated on resolved paths;
`path.sep` is `"/"`).  Returns `true` iff the function throws its
`SkillManagerError`. -/
def validatePathWithinBase (resolvedBase resolvedTarget : String) : Bool :=
  !(jsStartsWith resolvedTarget (resolvedBase ++ "/")) && !(resolvedTarget == resolvedBase)

/-! ## Metadata loading — from `src/metadata-manager.ts` -/

/-- The result of `JSON.parse(content) as SkillMetadata`: each of the four
required fields is either absent (`undefined`) or a string.  The claims only
concern field presence and emptiness, so field values are modelled as optional
strings. -/
structure SkillMetadata where
  remote : Option String
  type : Option String
  lastSync : Option String
  contentHash : Option String
deriving Repr, DecidableEq

/-- JavaScript truthiness of an optional string field: `undefined` and the
empty string are falsy. -/
def truthy : Option String → Bool
  | none => false
  | some s => !(s == "")

/-- `loadMetadata` from `src/metadata-manager.ts`.  `metadataFile` is the
metadata file's raw content (`none` when `fs.pathExists` is false), and
`parseJson` is the external `JSON.parse` (returning `none` when it throws).
A read error is subsumed by the parse-failure case — both land in the same
`catch` returning `null`. -/
def loadMetadata (metadataFile : Option String)
    (parseJson : String → Option SkillMetadata) : Option SkillMetadata :=
  match metadataFile with
  | none => none
  | some content =>
    match parseJson content with
    | none => none
    | some metadata =>
      -- `if (!metadata.remote || !metadata.type || !metadata.lastSync || !metadata.contentHash)`
      if !truthy metadata.remote || !truthy metadata.type
          || !truthy metadata.lastSync || !truthy metadata.contentHash then
        none
      else
        some metadata

/-! ## Symlink creation — from `agent-manager.ts` -/

/-- What `fs.lstat` can find at the symlink target path. -/
inductive TargetEntry where
  | symlinkTo (dest : String)
  | realFile
  | realDir
deriving Repr, DecidableEq

/-- Observable outcome of `createSymlink`: whether it threw (the error is
wrapped by `wrapError` with a `Failed to create symlink` message), what
occupies the target path afterwards, and whether the non-symlink warning was
printed. -/
structure SymlinkOutcome where
  result : Except String Unit
  target : Option TargetEntry
  warned : Bool
deriving Repr

/-- `createSymlink` from `agent-manager.ts`.  `sourceExists` models
`fs.pathExists(source)`, `targetValid` models the `validatePathWithinBase`
check against the agent directories, and `targetEntry` is the existing
filesystem entry at the target path (`none` when `fs.pathExists(target)` is
false). -/
def createSymlink (source : String) (sourceExists targetValid : Bool)
    (targetEntry : Option TargetEntry) : SymlinkOutcome :=
  if !sourceExists then
    { result := .error ("Failed to create symlink: Source path does not exist: " ++ source),
      target := targetEntry, warned := false }
  else if !targetValid then
    { result := .error "Failed to create symlink: Target path is not within any valid agent directory",
      target := targetEntry, warned := false }
  else
    match targetEntry with
    | some (.symlinkTo _) =>
      -- existing symlink: `fs.unlink(target)` then `fs.symlink(source, target, ...)`
      { result := .ok (), target := some (.symlinkTo source), warned := false }
    | some .realFile =>
      -- real file: warn and return without touching it
      { result := .ok (), target := some .realFile, warned := true }
    | some .realDir =>
      -- real directory: warn and return without touching it
      { result := .ok (), target := some .realDir, warned := true }
    | none =>
      { result := .ok (), target := some (.symlinkTo source), warned := false }

/-! ## Directory hashing — from `src/metadata-manager.ts`

The filesystem below a skill directory is modelled as a tree.  A mutual
inductive (rather than `List`-nested children) keeps all recursions
structural.  Directory entries carry the data the source reads from them:
`readable` models whether `fs.createReadStream`/`pipeline` succeeds on a file,
`listable` whether `fs.readdir` succeeds on a directory.  The cryptographic
digest is abstracted: a running digest is modelled as the list of `update`
chunks fed to it (equal chunk streams give equal digests), and the per-file
SHA-256 is a parameter `sha`. -/

mutual
/-- A filesystem entry as seen by `fs.readdir(..., { withFileTypes: true })`:
a regular file, a symlink (neither `isDirectory()` nor `isFile()`), or a
directory. -/
inductive FSEntry where
  | file (content : String) (readable : Bool)
  | symlink (target : String)
  | dir (d : FSDir)

/-- A directory: whether `fs.readdir` succeeds on it, and its named entries. -/
inductive FSDir where
  | mk (listable : Bool) (entries : FSEntries)

/-- The entry list of a directory. -/
inductive FSEntries where
  | nil
  | cons (name : String) (entry : FSEntry) (rest : FSEntries)
end

/-- `path.join` for the shapes used by the source (joining a directory path
and an entry name). -/
def pathJoin (a b : String) : String := a ++ "/" ++ b

/-- `path.relative` for the shapes used by the source: the collected file
paths all have the form `skillDir ++ "/" ++ rel`, and `path.relative` strips
that prefix. -/
def pathRelative (base p : String) : String := ⟨p.data.drop (base.data.length + 1)⟩

/-- An error raised through `wrapError` (`SkillManagerError`): its error code
and message. -/
structure SkillErr where
  code : String
  message : String
deriving Repr, DecidableEq

mutual
/-- `getAllFiles` from `src/metadata-manager.ts`: recursively collect files.
Each collected path is paired with the file node found there (content and
readability) — the model's stand-in for the later `fs.createReadStream` read.
A `fs.readdir` failure is caught inside `getAllFiles`: the partially collected
(empty) list is returned, with only a console warning. -/
def getAllFiles (dir : String) : FSDir → List (String × String × Bool)
  | .mk listable entries =>
    if listable then getAllFilesLoop dir entries else []

/-- The `for (const entry of entries)` loop of `getAllFiles`: recurse into
non-dot directories, collect regular files, skip anything else. -/
def getAllFilesLoop (dir : String) : FSEntries → List (String × String × Bool)
  | .nil => []
  | .cons name entry rest =>
    (match entry with
     | .dir d => if !(jsStartsWith name ".") then getAllFiles (pathJoin dir name) d else []
     | .file content readable => [(pathJoin dir name, content, readable)]
     | .symlink _ => []) ++ getAllFilesLoop dir rest
end

/-- `hashFile` from `src/metadata-manager.ts`: stream the file through
SHA-256; a read error is wrapped into a filesystem-class error. -/
def hashFile (sha : String → String) (filePath : String) (content : String)
    (readable : Bool) : Except SkillErr String :=
  if readable then .ok (sha content)
  else .error { code := "FILE_SYSTEM_ERROR", message := "Failed to hash file " ++ filePath }

/-- The string comparison underlying JavaScript's default `Array.sort`:
lexicographic comparison of the character sequences. -/
def jsStringLe (a b : String) : Prop := a.data ≤ b.data

instance : DecidableRel jsStringLe := fun a b =>
  inferInstanceAs (Decidable (a.data ≤ b.data))

/-- Comparison of collected entries by their first (path) component — the
order used by `files.sort()`. -/
def leFst {β : Type} (a b : String × β) : Prop := jsStringLe a.1 b.1

instance {β : Type} : DecidableRel (leFst (β := β)) := fun a b =>
  inferInstanceAs (Decidable (jsStringLe a.1 b.1))

instance {β : Type} : IsTotal (String × β) leFst := ⟨fun a b => le_total a.1.data b.1.data⟩

instance {β : Type} : IsTrans (String × β) leFst := ⟨fun _ _ _ h h2 => le_trans h h2⟩

/-- The `for (const file of files)` loop of `calculateContentHash`: skip the
metadata file, then feed the relative path and the per-file digest to the
running digest.  Returns the chunk stream, or the first `hashFile` error. -/
def hashLoop (sha : String → String) (metadataFilename skillDir : String) :
    List (String × String × Bool) → Except SkillErr (List String)
  | [] => .ok []
  | (file, content, readable) :: rest =>
    let relativePath := pathRelative skillDir file
    if relativePath == metadataFilename then
      hashLoop sha metadataFilename skillDir rest
    else
      match hashFile sha file content readable with
      | .error e => .error e
      | .ok fileHash =>
        match hashLoop sha metadataFilename skillDir rest with
        | .error e => .error e
        | .ok chunks => .ok (relativePath :: fileHash :: chunks)

/-- `calculateContentHash` from `src/metadata-manager.ts`: collect all files,
sort the full paths, hash path + per-file digest for each non-metadata file;
any error escaping the loop is wrapped into a filesystem-class error. -/
def calculateContentHash (sha : String → String) (metadataFilename skillDir : String)
    (root : FSDir) : Except SkillErr (List String) :=
  let files := getAllFiles skillDir root
  let sorted := List.insertionSort leFst files
  match hashLoop sha metadataFilename skillDir sorted with
  | .ok chunks => .ok chunks
  | .error _ =>
    .error { code := "FILE_SYSTEM_ERROR",
             message := "Failed to calculate content hash for " ++ skillDir }

mutual
/-- Reference definition, following the spec's words (§4.1): collect all
regular files recursively as skill-relative paths, entering only
non-dot-prefixed directories.  (The spec definition presupposes readable
content; it is compared with the code under a no-read-error hypothesis.) -/
def specFilesDir : FSDir → List (String × String)
  | .mk _ entries => specFilesEntries entries

/-- Entry-list part of `specFilesDir`. -/
def specFilesEntries : FSEntries → List (String × String)
  | .nil => []
  | .cons name entry rest =>
    (match entry with
     | .file content _ => [(name, content)]
     | .symlink _ => []
     | .dir d =>
       if !(jsStartsWith name ".") then
         (specFilesDir d).map (fun p => (name ++ "/" ++ p.1, p.2))
       else []) ++ specFilesEntries rest
end

/-- Reference digest, following the spec's words (§4.1): exclude the skill's
own metadata record file, sort the file paths lexicographically, and fold
each file's path string followed by that file's content digest. -/
def specContentHash (sha : String → String) (metadataFilename : String)
    (root : FSDir) : List String :=
  let files := (specFilesDir root).filter (fun p => p.1 != metadataFilename)
  let sorted := List.insertionSort leFst files
  sorted.foldr (fun p acc => p.1 :: sha p.2 :: acc) []

mutual
/-- Every file in the tree is readable and every directory listable (no
filesystem read error anywhere). -/
def allReadableDir : FSDir → Bool
  | .mk listable entries => listable && allReadableEntries entries

/-- Entry-list part of `allReadableDir`. -/
def allReadableEntries : FSEntries → Bool
  | .nil => true
  | .cons _ entry rest =>
    (match entry with
     | .file _ readable => readable
     | .symlink _ => true
     | .dir d => allReadableDir d) && allReadableEntries rest
end

mutual
/-- The hashing traversal encounters a directory-listing failure: some
directory reached by `getAllFiles` (i.e. not hidden inside a dot-prefixed
directory) has an unlistable entry list. -/
def encountersListFailureDir : FSDir → Bool
  | .mk listable entries => !listable || encountersListFailureEntries entries

/-- Entry-list part of `encountersListFailureDir`. -/
def encountersListFailureEntries : FSEntries → Bool
  | .nil => false
  | .cons name entry rest =>
    (match entry with
     | .file _ _ => false
     | .symlink _ => false
     | .dir d => !(jsStartsWith name ".") && encountersListFailureDir d)
    || encountersListFailureEntries rest
end

/-- Example tree for the hashing claims: two top-level files, a `.git`
directory (skipped), the metadata record file (excluded from the digest), and
a subdirectory with one file.  Everything is readable. -/
def c4Tree : FSDir := .mk true
  (.cons "b.md" (.file "bravo" true)
  (.cons "a.md" (.file "alpha" true)
  (.cons ".git" (.dir (.mk true (.cons "HEAD" (.file "ref" true) .nil)))
  (.cons "skill-metadata.json" (.file "meta" true)
  (.cons "sub" (.dir (.mk true (.cons "c.md" (.file "charlie" true) .nil)))
  .nil)))))

/-- Example tree for C5: one readable top-level file plus a subdirectory whose
`fs.readdir` fails (`listable = false`) and which contains a file that
therefore never gets hashed. -/
def c5Tree : FSDir := .mk true
  (.cons "a.txt" (.file "x" true)
  (.cons "sub" (.dir (.mk false (.cons "b.txt" (.file "y" true) .nil)))
  .nil))

/-- Example tree for C5: a single file whose read stream fails. -/
def c5BadTree : FSDir := .mk true (.cons "bad.txt" (.file "z" false) .nil)

/-! ## Bounded-concurrency scheduler — `pLimit` from `src/utils.ts`

`pLimit` is simulated deterministically.  Each item's asynchronous work is
given an explicit duration; the promise created for item `i` starts when the
loop iteration for `i` runs and resolves `duration i` ticks later.  The
simulation tracks:

* the event-loop clock `t` (it advances only at the loop's `await` points:
  `Promise.race(executing)` and the final `Promise.all(executing)`);
* every promise created so far (`started`), with its resolution time;
* the shared `results` array: whenever the clock advances, the `.then`
  callback (`results.push`) of every promise that has resolved by then runs,
  in resolution-time order (ties by creation order);
* the code's `executing` array.  Note the source's splice after the race
  removes the promise created in the *current* iteration
  (`executing.findIndex((p) => p === promise)`), not the promise that
  settled, and the final `Promise.all` awaits only what remains in
  `executing` — the simulation reproduces this faithfully.

The returned list is the content of `results` at the moment the final
`Promise.all(executing)` resolves. -/

/-- A created promise: creation index, resolution time, and the value its
`fn(item)` resolves with. -/
structure PEntry (β : Type) where
  idx : Nat
  finish : Nat
  value : β
deriving Repr, DecidableEq

/-- Simulation state for `pLimit`. -/
structure PState (β : Type) where
  t : Nat
  started : List (PEntry β)
  flushedIdx : List Nat
  results : List β
  executing : List Nat
deriving Repr

/-- Resolution order of promises: earlier resolution time first, ties broken
by creation order. -/
def completesBefore {β : Type} (a b : PEntry β) : Prop :=
  a.finish < b.finish ∨ (a.finish = b.finish ∧ a.idx ≤ b.idx)

instance {β : Type} : DecidableRel (completesBefore (β := β)) := fun a b =>
  inferInstanceAs (Decidable (a.finish < b.finish ∨ (a.finish = b.finish ∧ a.idx ≤ b.idx)))

instance {β : Type} : IsTotal (PEntry β) completesBefore :=
  ⟨fun a b => by
    unfold completesBefore
    rcases Nat.lt_trichotomy a.finish b.finish with h | h | h
    · exact Or.inl (Or.inl h)
    · rcases Nat.le_total a.idx b.idx with h2 | h2
      · exact Or.inl (Or.inr ⟨h, h2⟩)
      · exact Or.inr (Or.inr ⟨h.symm, h2⟩)
    · exact Or.inr (Or.inl h)⟩

instance {β : Type} : IsTrans (PEntry β) completesBefore :=
  ⟨fun a b c hab hbc => by
    unfold completesBefore at hab hbc ⊢
    rcases hab with h | ⟨he, hi⟩ <;> rcases hbc with h2 | ⟨he2, hi2⟩
    · exact Or.inl (Nat.lt_trans h h2)
    · exact Or.inl (he2 ▸ h)
    · exact Or.inl (he ▸ h2)
    · exact Or.inr ⟨he.trans he2, Nat.le_trans hi hi2⟩⟩

/-- Advance the clock to `t'` and run the `.then` callbacks of every promise
that has resolved by then and has not pushed yet, in resolution order. -/
def flushAt {β : Type} (tNew : Nat) (st : PState β) : PState β :=
  let ready := List.insertionSort completesBefore
    (st.started.filter (fun e => decide (e.finish ≤ tNew) && !(st.flushedIdx.contains e.idx)))
  { st with
    t := tNew,
    flushedIdx := st.flushedIdx ++ ready.map (·.idx),
    results := st.results ++ ready.map (·.value) }

/-- The promises currently referenced by the `executing` array. -/
def executingEntries {β : Type} (st : PState β) : List (PEntry β) :=
  st.started.filter (fun e => st.executing.contains e.idx)

/-- The `for (const item of items)` loop of `pLimit`: create the promise for
the item, and when `executing.length >= concurrency`, await
`Promise.race(executing)` (the clock advances to the earliest resolution among
`executing`, or not at all if one already resolved) and then splice out the
promise created in this iteration. -/
def pLimitGo {α β : Type} (fn : α → β) (durations : List Nat) (concurrency : Nat) :
    List α → Nat → PState β → PState β
  | [], _, st => st
  | item :: rest, i, st =>
    let entry : PEntry β := ⟨i, st.t + durations.getD i 0, fn item⟩
    let st1 : PState β :=
      { st with started := st.started ++ [entry], executing := st.executing ++ [i] }
    let st2 :=
      if concurrency ≤ st1.executing.length then
        let raceTime :=
          match ((executingEntries st1).map (·.finish)).min? with
          | some m => max st1.t m
          | none => st1.t
        let st' := flushAt raceTime st1
        { st' with executing := st'.executing.erase i }
      else st1
    pLimitGo fn durations concurrency rest (i + 1) st2

/-- `pLimit` from `src/utils.ts`: run the loop from an empty state, then await
`Promise.all(executing)` (the clock advances to the latest resolution among
the promises still in `executing`) and return the `results` array as it is at
that moment. -/
def pLimitModel {α β : Type} (items : List α) (fn : α → β) (durations : List Nat)
    (concurrency : Nat) : List β :=
  let st := pLimitGo fn durations concurrency items 0 ⟨0, [], [], [], []⟩
  let allTime := (executingEntries st).foldr (fun e acc => max e.finish acc) st.t
  (flushAt allTime st).results

/-! ## Sync orchestration — from `src/sync.ts` -/

/-- `FetchResult` from `src/types.ts`: per-skill outcome. -/
structure FetchResult where
  skillName : String
  success : Bool
  error : Option String := none
  skipped : Bool := false
  reason : Option String := none
deriving Repr, DecidableEq

/-- Result of `shouldSkipSync` (the skip-decision engine, an external
collaborator of `syncSingleSkill`). -/
structure SkipCheckResult where
  shouldSkip : Bool := false
  reason : Option String := none
  needsInteraction : Bool := false
deriving Repr, DecidableEq

/-- The behaviour of one skill entry and of the external calls
`syncSingleSkill` makes for it: the outcome of `sanitizeSkillName`, whether
`validateSkillConfig` throws, the `shouldSkipSync` answer, the
`promptForOverwrite` answer, and whether `fetcher.fetch` throws (with which
message).  Symlink errors are caught and logged inside `syncSingleSkill` and
never affect the result, so they are not tracked. -/
structure SkillBehavior where
  rawName : String
  sanitized : Except String String
  validateError : Option String := none
  skipCheck : SkipCheckResult := {}
  overwrite : Bool := true
  fetchError : Option String := none
deriving Repr

/-- `syncSingleSkill` from `src/sync.ts`: a total function into
`FetchResult` — every throw inside the `try` block is caught and converted
into a failed result; nothing escapes. -/
def syncSingleSkill (b : SkillBehavior) (dryRun : Bool)
    (forceSkills : Option (List String)) : FetchResult :=
  match b.sanitized with
  | .error errorMessage =>
    { skillName := b.rawName, success := false, error := some errorMessage }
  | .ok skillName =>
    match b.validateError with
    | some errorMessage =>
      { skillName := skillName, success := false, error := some errorMessage }
    | none =>
      if dryRun then { skillName := skillName, success := true }
      else
        let shouldForce :=
          match forceSkills with
          | some fs => decide (0 < fs.length) && fs.contains skillName
          | none => false
        if !shouldForce && b.skipCheck.shouldSkip then
          { skillName := skillName, success := true, skipped := true,
            reason := b.skipCheck.reason }
        else if !shouldForce && b.skipCheck.needsInteraction && !b.overwrite then
          { skillName := skillName, success := true, skipped := true,
            reason := b.skipCheck.reason }
        else
          match b.fetchError with
          | some errorMessage =>
            { skillName := skillName, success := false, error := some errorMessage }
          | none => { skillName := skillName, success := true }

/-- `MAX_CONCURRENT_SYNCS` from `src/sync.ts`. -/
def MAX_CONCURRENT_SYNCS : Nat := 5

/-- `syncSkills` from `src/sync.ts`: run every configured skill through
`syncSingleSkill` under `pLimit` with concurrency 5. -/
def syncSkills (skills : List SkillBehavior) (durations : List Nat)
    (dryRun : Bool) (forceSkills : Option (List String)) : List FetchResult :=
  pLimitModel skills (fun b => syncSingleSkill b dryRun forceSkills) durations
    MAX_CONCURRENT_SYNCS

/-- A well-behaved skill entry (sanitizes to its own name, nothing fails). -/
def basicSkill (name : String) : SkillBehavior :=
  { rawName := name, sanitized := .ok name }

/-- Three well-behaved skills for the ordering counterexample. -/
def c1Skills : List SkillBehavior :=
  [basicSkill "alpha", basicSkill "beta", basicSkill "gamma"]

/-- Six skills for the batch-isolation claim: the second one's fetch throws. -/
def c6Skills : List SkillBehavior :=
  [basicSkill "s1",
   { basicSkill "s2" with fetchError := some "network down" },
   basicSkill "s3", basicSkill "s4", basicSkill "s5", basicSkill "s6"]

end AgentManager

namespace AgentManager

/-! ## Theorems for C2, C8, C10 -/

/-- Helper: behaviour of the retry loop when every invocation fails with a
retryable error. -/
theorem withRetryGo_all_retryable (op : Nat → Except String α) (name : String)
    (config : RetryConfig) (errs : Nat → String)
    (hop : ∀ k, op k = .error (errs k))
    (hret : ∀ k, config.isRetryable (errs k) = true) :
    ∀ fuel attempt last, attempt + fuel = config.maxRetries + 1 → 1 ≤ fuel →
      (withRetryGo op name config attempt fuel last).calls = fuel ∧
      (withRetryGo op name config attempt fuel last).result
        = .error (errs config.maxRetries) := by
  intro fuel
  induction fuel with
  | zero => intro _ _ h h1; omega
  | succ n ih =>
    intro attempt last hsum _
    simp only [withRetryGo, hop attempt]
    by_cases hn : n = 0
    · subst hn
      have hatt : attempt = config.maxRetries := by omega
      rw [if_pos (Or.inl (le_of_eq hatt.symm))]
      exact ⟨rfl, by rw [hatt]⟩
    · have hcond : ¬(config.maxRetries ≤ attempt ∨ config.isRetryable (errs attempt) = false) := by
        rintro (h | h)
        · omega
        · rw [hret attempt] at h; exact Bool.true_eq_false.mp h
      rw [if_neg hcond]
      have := ih (attempt + 1) (some (errs attempt)) (by omega) (by omega)
      exact ⟨by simp [this.1], this.2⟩

/-- C2: if the operation fails on every call with a retryable error, `withRetry`
calls it exactly `maxRetries` times and then propagates the last attempt's
original error; if the first call fails with a non-retryable error, it is
called exactly once and that original error propagates. -/
theorem withRetry_attempt_counts (op : Nat → Except String α) (name : String)
    (config : RetryConfig) (hmax : 1 ≤ config.maxRetries) :
    ((∀ errs : Nat → String, (∀ k, op k = .error (errs k)) →
        (∀ k, config.isRetryable (errs k) = true) →
        (withRetry op name config).calls = config.maxRetries ∧
        (withRetry op name config).result = .error (errs config.maxRetries)) ∧
     (∀ e : String, op 1 = .error e → config.isRetryable e = false →
        (withRetry op name config).calls = 1 ∧
        (withRetry op name config).result = .error e)) := by
  constructor
  · intro errs hop hret
    exact withRetryGo_all_retryable op name config errs hop hret
      config.maxRetries 1 none (by omega) hmax
  · intro e hop hret
    unfold withRetry
    obtain ⟨fuel, hfuel⟩ : ∃ fuel, config.maxRetries = fuel + 1 :=
      ⟨config.maxRetries - 1, by omega⟩
    rw [hfuel]
    simp only [withRetryGo, hop]
    rw [if_pos (Or.inr hret)]
    exact ⟨rfl, rfl⟩

/-- C2 witness: a concrete run.  With `maxRetries = 3` and an operation that
always throws a retryable error, the operation runs 3 times and the third
error propagates; with a non-retryable first error it runs once. -/
theorem withRetry_attempt_counts_witness :
    (1 ≤ (3 : Nat)) ∧
    ((withRetry (α := Unit) (fun k => .error ("boom " ++ toString k)) "op"
        ⟨3, 100, 1000, 2, fun _ => true⟩).calls = 3 ∧
     (withRetry (α := Unit) (fun k => .error ("boom " ++ toString k)) "op"
        ⟨3, 100, 1000, 2, fun _ => true⟩).result = .error "boom 3") ∧
    ((withRetry (α := Unit) (fun _ => .error "fatal") "op"
        ⟨3, 100, 1000, 2, fun _ => false⟩).calls = 1 ∧
     (withRetry (α := Unit) (fun _ => .error "fatal") "op"
        ⟨3, 100, 1000, 2, fun _ => false⟩).result = .error "fatal") := by
  refine ⟨by decide, ?_, ?_⟩
  · exact (withRetry_attempt_counts (fun k => .error ("boom " ++ toString k)) "op"
      ⟨3, 100, 1000, 2, fun _ => true⟩ (by decide)).1
      (fun k => "boom " ++ toString k) (fun _ => rfl) (fun _ => rfl)
  · exact (withRetry_attempt_counts (fun _ => .error "fatal") "op"
      ⟨3, 100, 1000, 2, fun _ => false⟩ (by decide)).2 "fatal" rfl rfl

/-- Helper: the `j`-th sleep recorded by the retry loop starting at `attempt`
is the backoff computed for attempt `attempt + j`. -/
theorem withRetryGo_sleeps (op : Nat → Except String α) (name : String)
    (config : RetryConfig) :
    ∀ fuel attempt last j,
      j < (withRetryGo op name config attempt fuel last).sleeps.length →
      (withRetryGo op name config attempt fuel last).sleeps.getD j 0
        = calculateBackoff (attempt + j) config := by
  intro fuel
  induction fuel with
  | zero => intro attempt last j h; simp [withRetryGo] at h
  | succ n ih =>
    intro attempt last j h
    simp only [withRetryGo] at h ⊢
    cases hop : op attempt with
    | ok a => simp [hop] at h
    | error e =>
      simp only [hop] at h ⊢
      by_cases hcond : config.maxRetries ≤ attempt ∨ config.isRetryable e = false
      · rw [if_pos hcond] at h
        simp at h
      · rw [if_neg hcond] at h ⊢
        cases j with
        | zero => simp
        | succ m =>
          simp only [List.getD_cons_succ]
          have hm : m < (withRetryGo op name config (attempt + 1) n (some e)).sleeps.length := by
            simpa using h
          have := ih (attempt + 1) (some e) m hm
          rw [this]
          congr 1
          omega

/-- C8: whenever `withRetry` sleeps before the `(n+1)`-th attempt (i.e. after
the `n`-th, 1-indexed, attempt failed retryably), the delay it computed equals
`min (initialBackoff * backoffMultiplier^(n-1)) maxBackoff`. -/
theorem withRetry_backoff_formula (op : Nat → Except String α) (name : String)
    (config : RetryConfig) (n : Nat) (h1 : 1 ≤ n)
    (h2 : n - 1 < (withRetry op name config).sleeps.length) :
    (withRetry op name config).sleeps.getD (n - 1) 0
      = min (config.initialBackoff * config.backoffMultiplier ^ (n - 1))
          config.maxBackoff := by
  have key := withRetryGo_sleeps op name config config.maxRetries 1 none (n - 1) h2
  rw [withRetry]
  rw [key]
  have hn : 1 + (n - 1) = n := by omega
  rw [hn, calculateBackoff]

/-- C8 witness: with `initialBackoff = 100`, `maxBackoff = 150`,
`multiplier = 2`, `maxRetries = 3` and an always-retryable failure, the sleep
before attempt 3 (after failed attempt 2) is `min (100·2) 150 = 150`. -/
theorem withRetry_backoff_formula_witness :
    ((1 : Nat) ≤ 2) ∧
    (2 - 1 < (withRetry (α := Unit) (fun _ => .error "ECONNRESET") "op"
        ⟨3, 100, 150, 2, fun _ => true⟩).sleeps.length) ∧
    (withRetry (α := Unit) (fun _ => .error "ECONNRESET") "op"
        ⟨3, 100, 150, 2, fun _ => true⟩).sleeps.getD (2 - 1) 0
      = min (100 * 2 ^ (2 - 1)) 150 := by
  refine ⟨by decide, by decide, ?_⟩
  exact withRetry_backoff_formula (fun _ => .error "ECONNRESET") "op"
    ⟨3, 100, 150, 2, fun _ => true⟩ 2 (by decide) (by decide)

/-- Helper for C10: Javascript's `startsWith` succeeds exactly on string-level
prefixes. -/
theorem jsStartsWith_iff (pre s : String) :
    jsStartsWith s pre = true ↔ ∃ rest : String, s = pre ++ rest := by
  unfold jsStartsWith
  rw [List.isPrefixOf_iff_prefix]
  constructor
  · rintro ⟨t, ht⟩
    refine ⟨⟨t⟩, ?_⟩
    cases s with
    | mk l =>
      cases ht
      rfl
  · rintro ⟨rest, rfl⟩
    exact ⟨rest.data, (String.data_append pre rest).symm⟩

/-- C10: `validatePathWithinBase` throws exactly when the resolved target is
neither the resolved base itself nor below it across a `/` boundary; the base
itself is always accepted, and a sibling whose name merely extends the base's
name (`/a/b` vs `/a/bc`) is rejected. -/
theorem validatePathWithinBase_spec :
    (∀ base target : String,
      validatePathWithinBase base target = true ↔
        ¬(target = base ∨ ∃ rest : String, target = base ++ "/" ++ rest)) ∧
    (∀ base : String, validatePathWithinBase base base = false) ∧
    validatePathWithinBase "/a/b" "/a/bc" = true := by
  refine ⟨?_, ?_, by decide⟩
  · intro base target
    rw [validatePathWithinBase, Bool.and_eq_true, Bool.not_eq_true', Bool.not_eq_true',
      beq_eq_false_iff_ne]
    constructor
    · rintro ⟨hpre, hne⟩ (heq | hrest)
      · exact hne heq
      · have : jsStartsWith target (base ++ "/") = true := by
          rw [jsStartsWith_iff]
          obtain ⟨rest, hr⟩ := hrest
          exact ⟨rest, by rw [hr, String.append_assoc]⟩
        rw [this] at hpre
        exact Bool.true_eq_false.mp hpre
    · intro h
      refine ⟨?_, fun heq => h (Or.inl heq)⟩
      cases hj : jsStartsWith target (base ++ "/")
      · rfl
      · obtain ⟨rest, hr⟩ := (jsStartsWith_iff (base ++ "/") target).mp hj
        exact absurd (Or.inr ⟨rest, by rw [hr, String.append_assoc]⟩) h
  · intro base
    simp [validatePathWithinBase]

/-- C3: `loadMetadata` returns `none` (never an error) whenever the metadata
file is missing, its content fails to parse, or any of the four required
fields is missing or empty; it returns a record exactly when the file parses
and all four fields are present and non-empty. -/
theorem loadMetadata_spec
    (file : Option String) (parseJson : String → Option SkillMetadata) :
    (∀ m : SkillMetadata,
      loadMetadata file parseJson = some m ↔
        ∃ content, file = some content ∧ parseJson content = some m ∧
          truthy m.remote = true ∧ truthy m.type = true ∧
          truthy m.lastSync = true ∧ truthy m.contentHash = true) ∧
    (file = none → loadMetadata file parseJson = none) ∧
    (∀ content, file = some content → parseJson content = none →
      loadMetadata file parseJson = none) ∧
    (∀ content m, file = some content → parseJson content = some m →
      (truthy m.remote = false ∨ truthy m.type = false ∨
       truthy m.lastSync = false ∨ truthy m.contentHash = false) →
      loadMetadata file parseJson = none) := by
  refine ⟨?_, ?_, ?_, ?_⟩
  · intro m
    constructor
    · intro h
      cases file with
      | none => simp [loadMetadata] at h
      | some content =>
        cases hp : parseJson content with
        | none => simp [loadMetadata, hp] at h
        | some md =>
          simp only [loadMetadata, hp] at h
          by_cases hb : (!truthy md.remote || !truthy md.type
              || !truthy md.lastSync || !truthy md.contentHash) = true
          · rw [if_pos hb] at h
            exact absurd h (by simp)
          · rw [if_neg hb] at h
            injection h with h
            subst h
            simp only [Bool.or_eq_true, not_or, Bool.not_eq_true'] at hb
            obtain ⟨⟨⟨h1, h2⟩, h3⟩, h4⟩ := hb
            exact ⟨content, rfl, hp, Bool.ne_false_iff.mp h1, Bool.ne_false_iff.mp h2,
              Bool.ne_false_iff.mp h3, Bool.ne_false_iff.mp h4⟩
    · rintro ⟨c, hc, hpc, h1, h2, h3, h4⟩
      cases file with
      | none => exact absurd hc (by simp)
      | some content =>
        injection hc with hc
        subst hc
        simp [loadMetadata, hpc, h1, h2, h3, h4]
  · rintro rfl; rfl
  · rintro content rfl hp
    simp [loadMetadata, hp]
  · rintro content m rfl hp hbad
    rcases hbad with h | h | h | h <;> simp [loadMetadata, hp, h]

/-- C3 witness: concrete runs of every branch — a complete record loads, a
missing file, an unparseable file, and a record with an empty `remote` field
all yield `none`. -/
theorem loadMetadata_spec_witness :
    loadMetadata (some "{...}")
        (fun _ => some ⟨some "https://r", some "GIT_REPO", some "2024", some "abc"⟩)
      = some ⟨some "https://r", some "GIT_REPO", some "2024", some "abc"⟩ ∧
    loadMetadata none (fun _ => some ⟨some "a", some "b", some "c", some "d"⟩) = none ∧
    loadMetadata (some "not json") (fun _ => none) = none ∧
    loadMetadata (some "{...}")
        (fun _ => some ⟨some "", some "GIT_REPO", some "2024", some "abc"⟩) = none := by
  refine ⟨?_, ?_, ?_, ?_⟩
  · exact ((loadMetadata_spec (some "{...}")
      (fun _ => some ⟨some "https://r", some "GIT_REPO", some "2024", some "abc"⟩)).1
      ⟨some "https://r", some "GIT_REPO", some "2024", some "abc"⟩).mpr
      ⟨"{...}", rfl, rfl, by decide, by decide, by decide, by decide⟩
  · exact (loadMetadata_spec none
      (fun _ => some ⟨some "a", some "b", some "c", some "d"⟩)).2.1 rfl
  · exact (loadMetadata_spec (some "not json") (fun _ => none)).2.2.1 "not json" rfl rfl
  · exact (loadMetadata_spec (some "{...}")
      (fun _ => some ⟨some "", some "GIT_REPO", some "2024", some "abc"⟩)).2.2.2
      "{...}" ⟨some "", some "GIT_REPO", some "2024", some "abc"⟩ rfl rfl
      (Or.inl (by decide))

/-- C7: when `createSymlink` finds an existing entry at the target path, it
removes and replaces it only if that entry is itself a symlink; a real file or
directory is left unchanged with a warning and no symlink is created over
it. -/
theorem createSymlink_existing_entry (source : String)
    (sourceExists targetValid : Bool) (targetEntry : Option TargetEntry)
    (hsrc : sourceExists = true) (hvalid : targetValid = true) :
    (∀ d, targetEntry = some (.symlinkTo d) →
      (createSymlink source sourceExists targetValid targetEntry).target
          = some (.symlinkTo source) ∧
      (createSymlink source sourceExists targetValid targetEntry).result = .ok () ∧
      (createSymlink source sourceExists targetValid targetEntry).warned = false) ∧
    (targetEntry = some .realFile ∨ targetEntry = some .realDir →
      (createSymlink source sourceExists targetValid targetEntry).target = targetEntry ∧
      (createSymlink source sourceExists targetValid targetEntry).warned = true ∧
      (createSymlink source sourceExists targetValid targetEntry).result = .ok ()) := by
  subst hsrc hvalid
  constructor
  · rintro d rfl
    exact ⟨rfl, rfl, rfl⟩
  · rintro (rfl | rfl) <;> exact ⟨rfl, rfl, rfl⟩

/-- C7 witness: with an existing source and a valid target, an existing
symlink at the target is replaced, while an existing real file at the target
is left in place with a warning. -/
theorem createSymlink_existing_entry_witness :
    ((createSymlink "/skills/a" true true (some (.symlinkTo "/old"))).target
        = some (.symlinkTo "/skills/a") ∧
     (createSymlink "/skills/a" true true (some (.symlinkTo "/old"))).result = .ok () ∧
     (createSymlink "/skills/a" true true (some (.symlinkTo "/old"))).warned = false) ∧
    ((createSymlink "/skills/a" true true (some .realFile)).target = some .realFile ∧
     (createSymlink "/skills/a" true true (some .realFile)).warned = true ∧
     (createSymlink "/skills/a" true true (some .realFile)).result = .ok ()) := by
  constructor
  · exact (createSymlink_existing_entry "/skills/a" true true (some (.symlinkTo "/old"))
      rfl rfl).1 "/old" rfl
  · exact (createSymlink_existing_entry "/skills/a" true true (some .realFile)
      rfl rfl).2 (Or.inl rfl)

/-! ### Helper lemmas for the hashing claims -/

/-- A common prefix can be cancelled on the left of a lexicographic
comparison of lists. -/
theorem lex_append_left_iff {α : Type} [LT α] [IsIrrefl α (· < ·)] (p s t : List α) :
    List.Lex (· < ·) (p ++ s) (p ++ t) ↔ List.Lex (· < ·) s t := by
  induction p with
  | nil => exact Iff.rfl
  | cons x p ih =>
    constructor
    · intro h
      cases h with
      | cons h => exact ih.mp h
      | rel h => exact absurd h (irrefl x)
    · intro h
      exact List.Lex.cons (ih.mpr h)

/-- Appending a common prefix preserves and reflects the JavaScript string
order. -/
theorem string_append_le_append_iff (p s t : String) :
    jsStringLe (p ++ s) (p ++ t) ↔ jsStringLe s t := by
  have hle : ∀ a b : List Char, a ≤ b ↔ (a = b ∨ List.Lex (· < ·) a b) := fun a b => Iff.rfl
  unfold jsStringLe
  rw [hle, hle]
  simp only [String.data_append]
  rw [List.append_right_inj, lex_append_left_iff]

/-- `orderedInsert` commutes with `map` along an order-preserving-and-reflecting
function. -/
theorem orderedInsert_map {α β : Type} (r : α → α → Prop) (s : β → β → Prop)
    [DecidableRel r] [DecidableRel s] (f : α → β)
    (hf : ∀ a b, s (f a) (f b) ↔ r a b) (a : α) (l : List α) :
    List.orderedInsert s (f a) (l.map f) = (List.orderedInsert r a l).map f := by
  induction l with
  | nil => rfl
  | cons b l ih =>
    simp only [List.map_cons, List.orderedInsert]
    by_cases h : r a b
    · rw [if_pos ((hf a b).mpr h), if_pos h, List.map_cons, List.map_cons]
    · rw [if_neg (fun hc => h ((hf a b).mp hc)), if_neg h, List.map_cons, ih]

/-- `insertionSort` commutes with `map` along an order-preserving-and-reflecting
function. -/
theorem insertionSort_map {α β : Type} (r : α → α → Prop) (s : β → β → Prop)
    [DecidableRel r] [DecidableRel s] (f : α → β)
    (hf : ∀ a b, s (f a) (f b) ↔ r a b) (l : List α) :
    List.insertionSort s (l.map f) = (List.insertionSort r l).map f := by
  induction l with
  | nil => rfl
  | cons a l ih =>
    simp only [List.map_cons, List.insertionSort, ih, orderedInsert_map r s f hf]

/-- `orderedInsert` puts `a` in front when `a` is below the whole list. -/
theorem orderedInsert_eq_cons {α : Type} (r : α → α → Prop) [DecidableRel r]
    (a : α) (l : List α) (h : ∀ x ∈ l, r a x) :
    List.orderedInsert r a l = a :: l := by
  cases l with
  | nil => rfl
  | cons b l => rw [List.orderedInsert, if_pos (h b (by simp))]

/-- Filtering distributes over `orderedInsert` into a sorted list. -/
theorem filter_orderedInsert {α : Type} (r : α → α → Prop) [DecidableRel r]
    [IsTotal α r] [IsTrans α r] (p : α → Bool) (a : α) (l : List α)
    (hl : l.Sorted r) :
    (List.orderedInsert r a l).filter p =
      if p a then List.orderedInsert r a (l.filter p) else l.filter p := by
  induction l with
  | nil =>
    cases hpa : p a <;> simp [List.orderedInsert, List.filter, hpa]
  | cons b l ih =>
    rw [List.orderedInsert]
    by_cases hab : r a b
    · rw [if_pos hab]
      by_cases hpa : p a = true
      · rw [if_pos hpa]
        have hall : ∀ x ∈ (b :: l).filter p, r a x := by
          intro x hx
          have hx' := List.mem_of_mem_filter hx
          rcases List.mem_cons.mp hx' with rfl | hx'
          · exact hab
          · exact IsTrans.trans _ _ _ hab (List.rel_of_sorted_cons hl x hx')
        rw [orderedInsert_eq_cons r a _ hall, List.filter_cons, if_pos hpa]
      · rw [if_neg hpa, List.filter_cons, if_neg hpa]
    · rw [if_neg hab]
      have ih' := ih hl.of_cons
      by_cases hpb : p b = true
      · simp only [List.filter_cons, hpb, if_pos, ih']
        by_cases hpa : p a = true
        · rw [if_pos hpa, if_pos hpa, List.orderedInsert, if_neg hab]
        · rw [if_neg hpa, if_neg hpa]
      · simp only [List.filter_cons, hpb, Bool.false_eq_true, if_false, ih']

/-- Filtering commutes with `insertionSort`. -/
theorem filter_insertionSort {α : Type} (r : α → α → Prop) [DecidableRel r]
    [IsTotal α r] [IsTrans α r] (p : α → Bool) (l : List α) :
    (List.insertionSort r l).filter p = List.insertionSort r (l.filter p) := by
  induction l with
  | nil => rfl
  | cons a l ih =>
    rw [List.insertionSort, filter_orderedInsert r p a _ (List.sorted_insertionSort r l),
      ih, List.filter_cons]
    by_cases hpa : p a = true
    · rw [if_pos hpa, if_pos hpa, List.insertionSort]
    · rw [if_neg hpa, if_neg hpa]

/-- `path.relative` undoes `path.join` below the skill directory. -/
theorem pathRelative_join (base r : String) : pathRelative base (base ++ "/" ++ r) = r := by
  unfold pathRelative
  have hdata : (base ++ "/" ++ r).data = (base.data ++ ['/']) ++ r.data := by
    simp [String.data_append]
  rw [hdata]
  have hlen : base.data.length + 1 = (base.data ++ ['/']).length := by simp
  rw [hlen, List.drop_left]

mutual
/-- On a tree without read errors, the code's file collection is exactly the
reference collection, with every relative path prefixed by the directory. -/
theorem getAllFiles_eq_map (base : String) (d : FSDir) (h : allReadableDir d = true) :
    getAllFiles base d
      = (specFilesDir d).map (fun p => (base ++ "/" ++ p.1, p.2, true)) := by
  cases d with
  | mk listable entries =>
    rw [allReadableDir, Bool.and_eq_true] at h
    rw [getAllFiles, if_pos h.1, specFilesDir,
      getAllFilesLoop_eq_map base entries h.2]

/-- Entry-list part of `getAllFiles_eq_map`. -/
theorem getAllFilesLoop_eq_map (base : String) (es : FSEntries)
    (h : allReadableEntries es = true) :
    getAllFilesLoop base es
      = (specFilesEntries es).map (fun p => (base ++ "/" ++ p.1, p.2, true)) := by
  cases es with
  | nil => rfl
  | cons name entry rest =>
    cases entry with
    | file content readable =>
      have h' : (readable && allReadableEntries rest) = true := h
      rw [Bool.and_eq_true] at h'
      show (pathJoin base name, content, readable) :: getAllFilesLoop base rest
        = ((name, content) :: specFilesEntries rest).map
            (fun p => (base ++ "/" ++ p.1, p.2, true))
      rw [List.map_cons, getAllFilesLoop_eq_map base rest h'.2, h'.1]
      rfl
    | symlink tgt =>
      have h' : (true && allReadableEntries rest) = true := h
      show getAllFilesLoop base rest
        = (specFilesEntries rest).map (fun p => (base ++ "/" ++ p.1, p.2, true))
      exact getAllFilesLoop_eq_map base rest (by simpa using h')
    | dir d =>
      have h' : (allReadableDir d && allReadableEntries rest) = true := h
      rw [Bool.and_eq_true] at h'
      show (if !(jsStartsWith name ".") then getAllFiles (pathJoin base name) d else [])
          ++ getAllFilesLoop base rest
        = ((if !(jsStartsWith name ".") then
              (specFilesDir d).map (fun p => (name ++ "/" ++ p.1, p.2))
            else []) ++ specFilesEntries rest).map
            (fun p => (base ++ "/" ++ p.1, p.2, true))
      rw [List.map_append, getAllFilesLoop_eq_map base rest h'.2]
      congr 1
      by_cases hdot : (!(jsStartsWith name ".")) = true
      · rw [if_pos hdot, if_pos hdot, getAllFiles_eq_map (pathJoin base name) d h'.1,
          List.map_map]
        apply List.map_congr_left
        intro p _
        show ((base ++ "/" ++ name) ++ "/" ++ p.1, p.2, true)
          = (base ++ "/" ++ (name ++ "/" ++ p.1), p.2, true)
        simp [String.append_assoc]
      · rw [if_neg hdot, if_neg hdot]
        rfl
end

/-- On an all-readable collection below `skillDir`, the hashing loop succeeds
and produces the fold of path-then-digest chunks over the non-metadata
files. -/
theorem hashLoop_map_ok (sha : String → String) (metadataFilename skillDir : String)
    (l : List (String × String)) :
    hashLoop sha metadataFilename skillDir
        (l.map (fun p => (skillDir ++ "/" ++ p.1, p.2, true)))
      = .ok ((l.filter (fun p => p.1 != metadataFilename)).foldr
          (fun p acc => p.1 :: sha p.2 :: acc) []) := by
  induction l with
  | nil => rfl
  | cons p l ih =>
    simp only [List.map_cons, hashLoop, pathRelative_join, List.filter_cons]
    by_cases h : (p.1 == metadataFilename) = true
    · rw [if_pos h]
      have : (p.1 != metadataFilename) = false := by simp [bne, h]
      rw [this, if_neg (by simp), ih]
    · rw [if_neg h]
      have : (p.1 != metadataFilename) = true := by simp [bne]; simpa using h
      rw [this, if_pos rfl, hashFile, if_pos rfl, ih]
      rfl

/-- C4: on every directory tree free of read errors, `calculateContentHash`
computes exactly the reference digest: the fold, over the regular files
collected recursively with dot-prefixed directories skipped and the metadata
record file excluded, sorted lexicographically, of each file's path string
followed by its content digest. -/
theorem calculateContentHash_matches_spec (sha : String → String)
    (metadataFilename skillDir : String) (root : FSDir)
    (h : allReadableDir root = true) :
    calculateContentHash sha metadataFilename skillDir root
      = .ok (specContentHash sha metadataFilename root) := by
  simp only [calculateContentHash, specContentHash]
  rw [getAllFiles_eq_map skillDir root h]
  rw [insertionSort_map (leFst (β := String)) (leFst (β := String × Bool))
    (fun p => (skillDir ++ "/" ++ p.1, p.2, true))
    (fun a b => string_append_le_append_iff (skillDir ++ "/") a.1 b.1) _]
  rw [hashLoop_map_ok, filter_insertionSort]

/-- C4 witness: on a concrete readable tree the code digest equals the
reference digest, and both evaluate to the expected chunk stream (relative
paths sorted, `.git` skipped, metadata record excluded). -/
theorem calculateContentHash_matches_spec_witness :
    allReadableDir c4Tree = true ∧
    calculateContentHash id "skill-metadata.json" "/skills/demo" c4Tree
      = .ok (specContentHash id "skill-metadata.json" c4Tree) ∧
    specContentHash id "skill-metadata.json" c4Tree
      = ["a.md", "alpha", "b.md", "bravo", "sub/c.md", "charlie"] := by
  refine ⟨rfl, ?_, rfl⟩
  exact calculateContentHash_matches_spec id "skill-metadata.json" "/skills/demo" c4Tree rfl

/-- C5 counterexample: on `c5Tree` the hashing traversal runs into a
`fs.readdir` failure on the subdirectory `sub`, yet `calculateContentHash`
does not propagate any error: it silently succeeds with a digest computed
over the partially listed content (the chunk stream omits `sub/b.txt`
entirely), refuting the claim that any read error encountered while hashing
propagates to the caller. -/
theorem calculateContentHash_swallows_listing_error :
    encountersListFailureDir c5Tree = true ∧
    calculateContentHash id "skill-metadata.json" "/skills/demo" c5Tree
      = .ok ["a.txt", "x"] := by
  exact ⟨rfl, rfl⟩

/-- Helper: the hashing loop succeeds iff every collected entry is either the
metadata record (skipped) or readable; otherwise the first `hashFile` failure
aborts it. -/
theorem hashLoop_ok_iff (sha : String → String) (metadataFilename skillDir : String)
    (l : List (String × String × Bool)) :
    (∃ chunks, hashLoop sha metadataFilename skillDir l = .ok chunks) ↔
      ∀ x ∈ l, pathRelative skillDir x.1 = metadataFilename ∨ x.2.2 = true := by
  induction l with
  | nil => simp [hashLoop]
  | cons x l ih =>
    obtain ⟨file, content, readable⟩ := x
    simp only [hashLoop]
    by_cases hm : (pathRelative skillDir file == metadataFilename) = true
    · rw [if_pos hm, ih]
      constructor
      · intro h y hy
        rcases List.mem_cons.mp hy with rfl | hy
        · exact Or.inl (beq_iff_eq.mp hm)
        · exact h y hy
      · intro h y hy
        exact h y (List.mem_cons_of_mem _ hy)
    · rw [if_neg hm]
      have hne : pathRelative skillDir file ≠ metadataFilename := by simpa using hm
      cases readable with
      | false =>
        rw [hashFile, if_neg (by simp)]
        constructor
        · rintro ⟨chunks, hc⟩
          exact absurd hc (by simp)
        · intro h
          rcases h (file, content, false) (List.mem_cons_self _ _) with h | h
          · exact absurd h hne
          · exact absurd h (by simp)
      | true =>
        rw [hashFile, if_pos rfl]
        cases hrec : hashLoop sha metadataFilename skillDir l with
        | error e =>
          rw [hrec] at ih
          constructor
          · rintro ⟨chunks, hc⟩
            exact absurd hc (by simp)
          · intro h
            have : ∀ x ∈ l, pathRelative skillDir x.1 = metadataFilename ∨ x.2.2 = true :=
              fun y hy => h y (List.mem_cons_of_mem _ hy)
            obtain ⟨chunks, hc⟩ := ih.mpr this
            exact absurd hc (by simp)
        | ok chunks =>
          rw [hrec] at ih
          constructor
          · intro _ y hy
            rcases List.mem_cons.mp hy with rfl | hy
            · exact Or.inr rfl
            · exact ih.mp ⟨chunks, rfl⟩ y hy
          · intro _
            exact ⟨_, rfl⟩

/-- C5 amended: a file-read failure on any collected non-metadata file makes
`calculateContentHash` fail with a filesystem-class error, but
directory-listing failures are swallowed by `getAllFiles` (the failed
directory simply contributes no files), so hashing succeeds exactly when every
collected non-metadata file is readable. -/
theorem calculateContentHash_error_policy (sha : String → String)
    (metadataFilename skillDir : String) (root : FSDir) :
    ((∃ chunks, calculateContentHash sha metadataFilename skillDir root = .ok chunks) ↔
      ∀ x ∈ getAllFiles skillDir root,
        pathRelative skillDir x.1 = metadataFilename ∨ x.2.2 = true) ∧
    (∀ e, calculateContentHash sha metadataFilename skillDir root = .error e →
      e.code = "FILE_SYSTEM_ERROR") := by
  constructor
  · have hmem : (∀ x ∈ List.insertionSort leFst (getAllFiles skillDir root),
        pathRelative skillDir x.1 = metadataFilename ∨ x.2.2 = true) ↔
        (∀ x ∈ getAllFiles skillDir root,
          pathRelative skillDir x.1 = metadataFilename ∨ x.2.2 = true) :=
      ⟨fun h y hy => h y ((List.mem_insertionSort leFst).mpr hy),
       fun h y hy => h y ((List.mem_insertionSort leFst).mp hy)⟩
    rw [← hmem, ← hashLoop_ok_iff sha metadataFilename skillDir
      (List.insertionSort leFst (getAllFiles skillDir root))]
    simp only [calculateContentHash]
    cases hrec : hashLoop sha metadataFilename skillDir
        (List.insertionSort leFst (getAllFiles skillDir root)) with
    | error e => simp [hrec]
    | ok chunks => simp [hrec]
  · intro e he
    simp only [calculateContentHash] at he
    cases hrec : hashLoop sha metadataFilename skillDir
        (List.insertionSort leFst (getAllFiles skillDir root)) with
    | error e2 =>
      rw [hrec] at he
      cases he
      rfl
    | ok chunks =>
      rw [hrec] at he
      cases he

/-- C5 amended witness: a tree with an unreadable file makes the hash fail
with a `FILE_SYSTEM_ERROR`, and on `c5Tree` (listing failure only) the
success criterion of the amended claim is concretely satisfied. -/
theorem calculateContentHash_error_policy_witness :
    (calculateContentHash id "skill-metadata.json" "/s" c5BadTree
        = .error { code := "FILE_SYSTEM_ERROR",
                   message := "Failed to calculate content hash for /s" }) ∧
    ({ code := "FILE_SYSTEM_ERROR",
       message := "Failed to calculate content hash for /s" } : SkillErr).code
      = "FILE_SYSTEM_ERROR" ∧
    (∃ chunks, calculateContentHash id "skill-metadata.json" "/s" c5Tree = .ok chunks) := by
  refine ⟨rfl, ?_, ?_⟩
  · exact (calculateContentHash_error_policy id "skill-metadata.json" "/s" c5BadTree).2
      _ rfl
  · exact (calculateContentHash_error_policy id "skill-metadata.json" "/s" c5Tree).1.mpr
      (by decide)

/-! ### Theorems for the scheduler claims (C1, C6, C9) -/

/-- Helper: the clock is a lower bound of the `foldr max` used for the final
`Promise.all`, and so is every referenced finish time. -/
theorem le_foldr_max {β : Type} (l : List (PEntry β)) (t0 : Nat) :
    t0 ≤ l.foldr (fun e acc => max e.finish acc) t0 ∧
    ∀ e ∈ l, e.finish ≤ l.foldr (fun e acc => max e.finish acc) t0 := by
  induction l with
  | nil => simp
  | cons x l ih =>
    refine ⟨le_trans ih.1 (by simp), ?_⟩
    intro e he
    rcases List.mem_cons.mp he with rfl | he
    · simp
    · exact le_trans (ih.2 e he) (by simp)

/-- Helper: while fewer promises than the concurrency bound exist, the
`pLimit` loop never awaits: it only creates promises and appends them to
`executing`. -/
theorem pLimitGo_no_race {α β : Type} (fn : α → β) (durations : List Nat)
    (concurrency : Nat) :
    ∀ (items : List α) (i : Nat) (st : PState β),
      st.executing.length + items.length < concurrency →
      pLimitGo fn durations concurrency items i st
        = { st with
            started := st.started
              ++ (items.enumFrom i).map (fun p => ⟨p.1, st.t + durations.getD p.1 0, fn p.2⟩),
            executing := st.executing ++ (items.enumFrom i).map (·.1) } := by
  intro items
  induction items with
  | nil =>
    intro i st h
    simp [pLimitGo, List.enumFrom]
  | cons item rest ih =>
    intro i st h
    simp only [pLimitGo]
    rw [if_neg (by
      simp only [List.length_append, List.length_cons, List.length_nil] at h ⊢; omega)]
    rw [ih (i + 1) _ (by
      simp only [List.length_append, List.length_cons, List.length_nil] at h ⊢; omega)]
    simp [List.enumFrom, List.append_assoc]

/-- C1 (amended), general form: when fewer items than the concurrency bound
are given, `pLimit` runs every item and returns exactly one result per item,
ordered by completion time (ties by input position) — not by input order. -/
theorem pLimitModel_below_concurrency {α β : Type} (items : List α) (fn : α → β)
    (durations : List Nat) (concurrency : Nat) (h : items.length < concurrency) :
    pLimitModel items fn durations concurrency
      = (List.insertionSort completesBefore
          (items.enum.map (fun p => (⟨p.1, durations.getD p.1 0, fn p.2⟩ : PEntry β)))).map
          (·.value) := by
  unfold pLimitModel
  rw [pLimitGo_no_race fn durations concurrency items 0 ⟨0, [], [], [], []⟩
    (by simpa using h)]
  simp only [List.nil_append]
  have hS : (List.enumFrom 0 items).map
      (fun p => (⟨p.1, 0 + durations.getD p.1 0, fn p.2⟩ : PEntry β))
      = items.enum.map (fun p => (⟨p.1, durations.getD p.1 0, fn p.2⟩ : PEntry β)) := by
    show (items.enum.map fun p => (⟨p.1, 0 + durations.getD p.1 0, fn p.2⟩ : PEntry β)) = _
    apply List.map_congr_left
    intro p _
    simp
  have hexec : ∀ (e : PEntry β),
      e ∈ (List.enumFrom 0 items).map
        (fun p => (⟨p.1, 0 + durations.getD p.1 0, fn p.2⟩ : PEntry β)) →
      ((List.enumFrom 0 items).map (·.1)).contains e.idx = true := by
    intro e he
    obtain ⟨p, hp, rfl⟩ := List.mem_map.mp he
    exact List.elem_iff.mpr (List.mem_map.mpr ⟨p, hp, rfl⟩)
  rw [show (executingEntries
      { t := 0,
        started := (List.enumFrom 0 items).map
          (fun p => (⟨p.1, 0 + durations.getD p.1 0, fn p.2⟩ : PEntry β)),
        flushedIdx := [], results := [],
        executing := (List.enumFrom 0 items).map (·.1) } : List (PEntry β))
      = (List.enumFrom 0 items).map
          (fun p => (⟨p.1, 0 + durations.getD p.1 0, fn p.2⟩ : PEntry β)) from
    List.filter_eq_self.mpr hexec]
  rw [flushAt]
  simp only []
  rw [List.filter_eq_self.mpr ?hall]
  case hall =>
    intro e he
    rw [Bool.and_eq_true, decide_eq_true_iff]
    exact ⟨(le_foldr_max _ 0).2 e he, rfl⟩
  rw [hS]
  simp

/-- C1 counterexample: three well-behaved skills whose syncs complete in the
order 2, 3, 1.  `syncSkills` reports them in completion order
`["beta", "gamma", "alpha"]`, not in the configuration order
`["alpha", "beta", "gamma"]` — refuting the claim that the returned list
always matches the configuration order. -/
theorem syncSkills_not_config_order :
    (syncSkills c1Skills [10, 1, 2] false none).map (·.skillName)
      = ["beta", "gamma", "alpha"] ∧
    c1Skills.map (·.rawName) = ["alpha", "beta", "gamma"] ∧
    (["beta", "gamma", "alpha"] : List String) ≠ ["alpha", "beta", "gamma"] := by
  exact ⟨rfl, rfl, by decide⟩

/-- C1 (amended): for configurations with fewer skills than the concurrency
limit, `syncSkills` returns exactly one `FetchResult` per skill, ordered by
sync completion time (ties by configuration position), which need not be the
configuration order. -/
theorem syncSkills_completion_order (skills : List SkillBehavior)
    (durations : List Nat) (dryRun : Bool) (forceSkills : Option (List String))
    (h : skills.length < MAX_CONCURRENT_SYNCS) :
    syncSkills skills durations dryRun forceSkills
      = (List.insertionSort completesBefore
          (skills.enum.map (fun p =>
            (⟨p.1, durations.getD p.1 0,
              syncSingleSkill p.2 dryRun forceSkills⟩ : PEntry FetchResult)))).map
          (·.value) :=
  pLimitModel_below_concurrency skills _ durations MAX_CONCURRENT_SYNCS h

/-- C1 (amended) witness: the three-skill configuration with completion times
10, 1, 2 satisfies the amended claim, and the completion-ordered result list
is concretely `["beta", "gamma", "alpha"]`. -/
theorem syncSkills_completion_order_witness :
    c1Skills.length < MAX_CONCURRENT_SYNCS ∧
    syncSkills c1Skills [10, 1, 2] false none
      = (List.insertionSort completesBefore
          (c1Skills.enum.map (fun p =>
            (⟨p.1, [10, 1, 2].getD p.1 0,
              syncSingleSkill p.2 false none⟩ : PEntry FetchResult)))).map
          (·.value) ∧
    (syncSkills c1Skills [10, 1, 2] false none).map (·.skillName)
      = ["beta", "gamma", "alpha"] := by
  exact ⟨by decide, syncSkills_completion_order c1Skills [10, 1, 2] false none
    (by decide), rfl⟩

/-- C6: six skills, the second one's fetch throws.  The error is isolated —
skill 2 is reported with `success = false` and a non-empty message, skills 1,
3, 4 complete and are reported successful, and the batch is not aborted — but
the claim that *every* other skill is reported fails: `pLimit`'s final
`Promise.all` awaits only the first four promises, so the still-running
skills 5 and 6 are missing from the returned list entirely. -/
theorem syncSkills_batch_isolation_failure :
    (syncSkills c6Skills [1, 2, 3, 4, 100, 100] false none).map
        (fun r => (r.skillName, r.success, r.error))
      = [("s1", true, none), ("s2", false, some "network down"),
         ("s3", true, none), ("s4", true, none)] ∧
    c6Skills.length = 6 ∧
    (syncSkills c6Skills [1, 2, 3, 4, 100, 100] false none).length = 4 ∧
    (∀ r ∈ syncSkills c6Skills [1, 2, 3, 4, 100, 100] false none,
      r.skillName ≠ "s5" ∧ r.skillName ≠ "s6") := by
  refine ⟨rfl, rfl, rfl, by decide⟩

/-- C9: `pLimit` can return fewer results than items.  With two items and
concurrency 2, where item 1 resolves quickly and item 2 slowly, the race after
creating promise 2 splices promise 2 (the just-created one, not the settled
one) out of `executing`, so the final `Promise.all` awaits only promise 1 and
the function returns a single result — refuting one-result-per-item. -/
theorem pLimit_drops_results :
    pLimitModel [10, 20] (fun n : Nat => n * 2) [1, 10] 2 = [20] ∧
    ([10, 20] : List Nat).length = 2 ∧
    (pLimitModel [10, 20] (fun n : Nat => n * 2) [1, 10] 2).length ≠ 2 := by
  exact ⟨rfl, rfl, by decide⟩

end AgentManager
